import Mathlib

/-!
Verification of the fuzzy-lookup dictionary of `distance.py` (`FuzzyDict`).

The embedding models:
  * catalog keys as `PyKey` (a string key, or a non-string key such as an
    integer, which cannot be fuzzy-compared);
  * the similarity ratio of `difflib.SequenceMatcher.ratio()` (a library the
    script calls, not part of the repository) following the specification:
    recursively take the longest common contiguous block of the two strings,
    recurse on the unmatched remainders on both sides, and return
    `2 * M / T` where `M` is the total number of matched characters and `T`
    the combined length; `1` when both strings are empty;
  * `FuzzyDict._search`, `__contains__`, `__getitem__` as pure functions over
    an entry list (the dict's iteration order) and a rational cutoff;
    a `KeyError` becomes the `GetResult.keyError` constructor carrying the
    attempted key, the closest key found and the best ratio, exactly the data
    interpolated into the Python exception message.
-/

set_option maxRecDepth 40000

namespace FuzzyLookup

/-- A Python value usable as a dictionary key in this program: either a text
string (fuzzy-comparable) or a non-string key such as an integer, which makes
`SequenceMatcher.set_seq2` / `ratio` raise `TypeError`. -/
inductive PyKey where
  | str (s : String)
  | intKey (n : Int)
deriving DecidableEq, Repr

/-- Whether a key is a string (fuzzy-comparable). -/
def PyKey.isStr : PyKey → Bool
  | .str _ => true
  | .intKey _ => false

/-- Length of the common prefix of two character lists: the length of the
matching run starting at the heads. -/
def runLen : List Char → List Char → Nat
  | x :: xs, y :: ys => if x = y then runLen xs ys + 1 else 0
  | _, _ => 0

/-- All index pairs `(i, j)` with `i < la`, `j < lb`, scanned row by row. -/
def idxPairs (la lb : Nat) : List (Nat × Nat) :=
  (List.range la).flatMap (fun i => (List.range lb).map (fun j => (i, j)))

/-- One step of the longest-common-block search: keep the candidate block
starting at `(i, j)` only when it is strictly longer than the best so far
(so ties keep the earliest block in scan order). -/
def blockStep (a b : List Char) (best : Nat × Nat × Nat) (p : Nat × Nat) :
    Nat × Nat × Nat :=
  if runLen (a.drop p.1) (b.drop p.2) > best.2.2 then
    (p.1, p.2, runLen (a.drop p.1) (b.drop p.2))
  else best

/-- The longest common contiguous block of `a` and `b`: a triple
`(i, j, k)` meaning `a[i .. i+k)` = `b[j .. j+k)`, with `k` maximal
(`(0, 0, 0)` when there is no common character). -/
def bestBlock (a b : List Char) : Nat × Nat × Nat :=
  (idxPairs a.length b.length).foldl (blockStep a b) (0, 0, 0)

/-- Total number of matched characters: the longest common block plus,
recursively, the matches of the remainders to its left and to its right.
`fuel` bounds the recursion depth; `fuel ≥ a.length` is always sufficient
because each recursive call strictly shortens the first list. -/
def mTotal : Nat → List Char → List Char → Nat
  | 0, _, _ => 0
  | fuel + 1, a, b =>
    if (bestBlock a b).2.2 = 0 then 0
    else
      mTotal fuel (a.take (bestBlock a b).1) (b.take (bestBlock a b).2.1) +
        (bestBlock a b).2.2 +
        mTotal fuel (a.drop ((bestBlock a b).1 + (bestBlock a b).2.2))
          (b.drop ((bestBlock a b).2.1 + (bestBlock a b).2.2))

/-- Total matched characters `M` between two strings. -/
def matchTotal (a b : String) : Nat := mTotal a.data.length a.data b.data

/-- The similarity measure `2 * M / T` in `[0, 1]`, as an exact rational
(`mkRat n d` is the rational `n / d`); `1` when both strings are empty
(`T = 0`). -/
def ratioQ (a b : String) : ℚ :=
  if a.data.length + b.data.length = 0 then 1
  else mkRat (2 * (matchTotal a b : Int)) (a.data.length + b.data.length)

/-- The fuzzy dictionary: its entries in iteration order, and the match
ratio below which non-exact matches are not considered. -/
structure FuzzyDict where
  entries : List (PyKey × String)
  cutoff : ℚ
deriving DecidableEq, Repr

/-- Plain-dict membership (`dict.__contains__`): exact key equality. -/
def dictContains (entries : List (PyKey × String)) (k : PyKey) : Bool :=
  entries.any (fun kv => kv.1 == k)

/-- Plain-dict lookup (`dict.__getitem__`): value of the exact key. -/
def dictGetitem (entries : List (PyKey × String)) (k : PyKey) : Option String :=
  (entries.find? (fun kv => kv.1 == k)).map (fun kv => kv.2)

/-- The key-scanning loop of `FuzzyDict._search`, carrying
`(best_ratio, best_key, best_match)` (initially `(0, None, None)`).
A non-string key makes `set_seq2` raise `TypeError`, which is caught and the
key skipped; a non-string `lookfor` makes `ratio()` raise `TypeError`, which
breaks out of the loop at the first string key. Otherwise the triple is
updated on a strictly greater ratio, and with `stopOnFirst` the loop breaks
as soon as the current ratio reaches the cutoff (after the update). Since
dict keys are unique, `self._dict_getitem(key)` is the value paired with the
key in the entry list. -/
def searchLoop (cutoff : ℚ) (lookfor : PyKey) (stopOnFirst : Bool) :
    List (PyKey × String) → ℚ × Option PyKey × Option String →
      ℚ × Option PyKey × Option String
  | [], best => best
  | kv :: rest, best =>
    match kv.1 with
    | .intKey _ => searchLoop cutoff lookfor stopOnFirst rest best
    | .str ks =>
      match lookfor with
      | .intKey _ => best
      | .str ls =>
        let r := ratioQ ls ks
        let best' := if r > best.1 then (r, some kv.1, some kv.2) else best
        if stopOnFirst && decide (r ≥ cutoff) then best'
        else searchLoop cutoff lookfor stopOnFirst rest best'

/-- `FuzzyDict._search`: exact hits return `(True, lookfor, value, 1)` at
once; otherwise the scan runs and the result is
`(best_ratio ≥ cutoff, best_key, best_match, best_ratio)`. -/
def pySearch (d : FuzzyDict) (lookfor : PyKey) (stopOnFirst : Bool) :
    Bool × Option PyKey × Option String × ℚ :=
  if dictContains d.entries lookfor then
    (true, some lookfor, dictGetitem d.entries lookfor, 1)
  else
    let b := searchLoop d.cutoff lookfor stopOnFirst d.entries (0, none, none)
    (decide (b.1 ≥ d.cutoff), b.2.1, b.2.2, b.1)

/-- `FuzzyDict.__contains__`: the matched flag of `_search(item, True)`. -/
def pyContains (d : FuzzyDict) (item : PyKey) : Bool :=
  if (pySearch d item true).1 then true else false

/-- Outcome of `FuzzyDict.__getitem__`: either the returned item (which is
absent when the scan never updated `best_match`), or the `KeyError` with the
data its message carries. -/
inductive GetResult where
  | ok (value : Option String)
  | keyError (attempted : PyKey) (closest : Option PyKey) (bestRatio : ℚ)
deriving DecidableEq, Repr

/-- `FuzzyDict.__getitem__`: raise `KeyError` when not matched, else return
the matched item. -/
def pyGetitem (d : FuzzyDict) (lookfor : PyKey) : GetResult :=
  let s := pySearch d lookfor false
  if s.1 then .ok s.2.2.1 else .keyError lookfor s.2.1 s.2.2.2

/-- The constructor's default cutoff (`cutoff = .6`). -/
def defaultCutoff : ℚ := mkRat 6 10

/-- `FuzzyDict.__init__` with both arguments supplied: copy the items and
store the cutoff (the docstring requires `cutoff` to lie between 0 and 1). -/
def FuzzyDict.init (items : List (PyKey × String)) (cutoff : ℚ) : FuzzyDict :=
  ⟨items, cutoff⟩

/-- `FuzzyDict.__init__` with the cutoff left to its default `.6`. -/
def FuzzyDict.initDefault (items : List (PyKey × String)) : FuzzyDict :=
  ⟨items, defaultCutoff⟩

/-- One step of the best-match tracking described by the specification: keep
the `(ratio, key, value)` triple of the current entry only when its ratio is
strictly greater than the best so far (ties keep the first entry found);
entries whose key cannot be compared are passed over. -/
def specStep (ls : String) (best : ℚ × Option PyKey × Option String)
    (kv : PyKey × String) : ℚ × Option PyKey × Option String :=
  match kv.1 with
  | .str ks =>
    if ratioQ ls ks > best.1 then (ratioQ ls ks, some kv.1, some kv.2) else best
  | .intKey _ => best

/-- The specification's description of the fuzzy scan: fold the best-match
step over every entry, starting from ratio `0` with no key and no value. -/
def specBest (ls : String) (entries : List (PyKey × String)) :
    ℚ × Option PyKey × Option String :=
  entries.foldl (specStep ls) (0, none, none)

/-- The prefix of the entry list a short-circuiting scan inspects: all
entries up to and including the first one whose (comparable) key reaches the
cutoff, the whole list when no entry does. -/
def stopScan (c : ℚ) (ls : String) :
    List (PyKey × String) → List (PyKey × String)
  | [] => []
  | kv :: rest =>
    match kv.1 with
    | .intKey _ => kv :: stopScan c ls rest
    | .str ks =>
      if ratioQ ls ks ≥ c then [kv] else kv :: stopScan c ls rest

theorem searchLoop_false_eq_foldl (c : ℚ) (ls : String)
    (entries : List (PyKey × String)) (init : ℚ × Option PyKey × Option String) :
    searchLoop c (.str ls) false entries init = entries.foldl (specStep ls) init := by
  induction entries generalizing init with
  | nil => rfl
  | cons kv rest ih =>
    obtain ⟨k, v⟩ := kv
    cases k with
    | intKey n => simpa [searchLoop, specStep] using ih init
    | str ks => simp [searchLoop, specStep, ih]

theorem searchLoop_false_eq_specBest (c : ℚ) (ls : String)
    (entries : List (PyKey × String)) :
    searchLoop c (.str ls) false entries (0, none, none) =
      specBest ls entries :=
  searchLoop_false_eq_foldl c ls entries (0, none, none)

theorem searchLoop_stop_eq_stopScan (c : ℚ) (ls : String)
    (entries : List (PyKey × String)) (init : ℚ × Option PyKey × Option String) :
    searchLoop c (.str ls) true entries init =
      searchLoop c (.str ls) false (stopScan c ls entries) init := by
  induction entries generalizing init with
  | nil => rfl
  | cons kv rest ih =>
    obtain ⟨k, v⟩ := kv
    cases k with
    | intKey n => simpa [searchLoop, stopScan] using ih init
    | str ks =>
      by_cases hc : ratioQ ls ks ≥ c
      · simp [searchLoop, stopScan, hc]
      · simp [searchLoop, stopScan, hc, ih]

theorem searchLoop_fst_ge (c : ℚ) (lf : PyKey) (sof : Bool)
    (entries : List (PyKey × String)) (init : ℚ × Option PyKey × Option String) :
    init.1 ≤ (searchLoop c lf sof entries init).1 := by
  induction entries generalizing init with
  | nil => exact le_refl _
  | cons kv rest ih =>
    obtain ⟨k, v⟩ := kv
    cases k with
    | intKey n => simpa [searchLoop] using ih init
    | str ks =>
      cases lf with
      | intKey m => simp [searchLoop]
      | str ls =>
        have hstep : init.1 ≤
            (if ratioQ ls ks > init.1 then
              ((ratioQ ls ks, some (PyKey.str ks), some v) :
                ℚ × Option PyKey × Option String)
            else init).1 := by
          split
          · exact le_of_lt (by assumption)
          · exact le_refl _
        simp only [searchLoop]
        split
        · exact hstep
        · exact le_trans hstep (ih _)

theorem searchLoop_fst_lt (c : ℚ) (lf : PyKey) (sof : Bool)
    (entries : List (PyKey × String)) (init : ℚ × Option PyKey × Option String)
    (h : init.1 < c)
    (hr : ∀ ls ks v, lf = PyKey.str ls → (PyKey.str ks, v) ∈ entries →
      ratioQ ls ks < c) :
    (searchLoop c lf sof entries init).1 < c := by
  induction entries generalizing init with
  | nil => exact h
  | cons kv rest ih =>
    obtain ⟨k, v⟩ := kv
    cases k with
    | intKey n =>
      simp only [searchLoop]
      exact ih init h (fun ls' ks' v' hlf hm =>
        hr ls' ks' v' hlf (List.mem_cons_of_mem _ hm))
    | str ks =>
      cases lf with
      | intKey m => simpa [searchLoop] using h
      | str ls =>
        have hrk : ratioQ ls ks < c :=
          hr ls ks v rfl (List.mem_cons_self _ _)
        have hbest : (if ratioQ ls ks > init.1 then
            ((ratioQ ls ks, some (PyKey.str ks), some v) :
              ℚ × Option PyKey × Option String)
          else init).1 < c := by
          split
          · exact hrk
          · exact h
        have hstop : (decide (ratioQ ls ks ≥ c)) = false := by
          simp [not_le.mpr hrk]
        simp only [searchLoop, hstop, Bool.and_false, if_neg Bool.false_ne_true]
        exact ih _ hbest (fun ls' ks' v' hlf hm =>
          hr ls' ks' v' hlf (List.mem_cons_of_mem _ hm))

theorem searchLoop_cutoff_irrel (c c' : ℚ) (lf : PyKey)
    (entries : List (PyKey × String)) (init : ℚ × Option PyKey × Option String) :
    searchLoop c lf false entries init = searchLoop c' lf false entries init := by
  induction entries generalizing init with
  | nil => rfl
  | cons kv rest ih =>
    obtain ⟨k, v⟩ := kv
    cases k with
    | intKey n => simpa [searchLoop] using ih init
    | str ks =>
      cases lf with
      | intKey m => rfl
      | str ls => simp [searchLoop, ih]

theorem searchLoop_stop_reaches (c : ℚ) (ls : String)
    (entries : List (PyKey × String)) (init : ℚ × Option PyKey × Option String)
    (h : ∃ kv ∈ entries, ∃ ks, kv.1 = PyKey.str ks ∧ c ≤ ratioQ ls ks) :
    c ≤ (searchLoop c (.str ls) true entries init).1 := by
  induction entries generalizing init with
  | nil =>
    obtain ⟨kv, hm, _⟩ := h
    exact absurd hm (List.not_mem_nil kv)
  | cons kv rest ih =>
    obtain ⟨k, v⟩ := kv
    cases k with
    | intKey n =>
      simp only [searchLoop]
      apply ih init
      obtain ⟨kv', hm, ks', hk', hc'⟩ := h
      rcases List.mem_cons.mp hm with heq | hm'
      · exact absurd (heq ▸ hk') (by simp)
      · exact ⟨kv', hm', ks', hk', hc'⟩
    | str ks =>
      by_cases hc : ratioQ ls ks ≥ c
      · have hbest : c ≤ (if ratioQ ls ks > init.1 then
            ((ratioQ ls ks, some (PyKey.str ks), some v) :
              ℚ × Option PyKey × Option String)
          else init).1 := by
          split
          · exact hc
          · exact le_trans hc (not_lt.mp (by assumption))
        simpa [searchLoop, hc] using hbest
      · simp only [searchLoop, decide_eq_false hc, Bool.and_false,
          if_neg Bool.false_ne_true]
        apply ih
        obtain ⟨kv', hm, ks', hk', hc'⟩ := h
        rcases List.mem_cons.mp hm with heq | hm'
        · refine absurd hc' (not_le.mpr ?_)
          have h2 : ks = ks' := by
            have := heq ▸ hk'
            simpa using this
          exact h2 ▸ not_le.mp hc
        · exact ⟨kv', hm', ks', hk', hc'⟩

theorem dictContains_filter_str (entries : List (PyKey × String)) (ls : String) :
    dictContains (entries.filter (fun kv => kv.1.isStr)) (.str ls) =
      dictContains entries (.str ls) := by
  induction entries with
  | nil => rfl
  | cons kv rest ih =>
    obtain ⟨k, v⟩ := kv
    cases k with
    | intKey n => simpa [dictContains, List.filter, PyKey.isStr] using ih
    | str ks =>
      have hf : ((PyKey.str ks, v) :: rest).filter (fun kv => kv.1.isStr) =
          (PyKey.str ks, v) :: rest.filter (fun kv => kv.1.isStr) := rfl
      rw [hf]
      simp only [dictContains, List.any_cons] at ih ⊢
      rw [ih]

theorem dictGetitem_filter_str (entries : List (PyKey × String)) (ls : String) :
    dictGetitem (entries.filter (fun kv => kv.1.isStr)) (.str ls) =
      dictGetitem entries (.str ls) := by
  induction entries with
  | nil => rfl
  | cons kv rest ih =>
    obtain ⟨k, v⟩ := kv
    cases k with
    | intKey n => simpa [dictGetitem, List.filter, PyKey.isStr] using ih
    | str ks =>
      by_cases h : ks = ls
      · simp [dictGetitem, List.filter, PyKey.isStr, List.find?, h]
      · have : (PyKey.str ks == PyKey.str ls) = false := by
          simp [h]
        simp only [dictGetitem, List.filter, PyKey.isStr, List.find?] at ih ⊢
        simpa [this] using ih

theorem searchLoop_filter_str (c : ℚ) (ls : String) (sof : Bool)
    (entries : List (PyKey × String)) (init : ℚ × Option PyKey × Option String) :
    searchLoop c (.str ls) sof (entries.filter (fun kv => kv.1.isStr)) init =
      searchLoop c (.str ls) sof entries init := by
  induction entries generalizing init with
  | nil => rfl
  | cons kv rest ih =>
    obtain ⟨k, v⟩ := kv
    cases k with
    | intKey n => simpa [searchLoop, List.filter, PyKey.isStr] using ih init
    | str ks =>
      have hf : ((PyKey.str ks, v) :: rest).filter (fun kv => kv.1.isStr) =
          (PyKey.str ks, v) :: rest.filter (fun kv => kv.1.isStr) := rfl
      rw [hf]
      simp only [searchLoop]
      split
      · rfl
      · exact ih _

/-- The example catalog of the specification:
`{"Mumbai": "101", "Delhi": "102", "Chennai": "103"}`. -/
def cat3 : List (PyKey × String) :=
  [(PyKey.str "Mumbai", "101"), (PyKey.str "Delhi", "102"),
    (PyKey.str "Chennai", "103")]

/-- C3: for every container and every key present exactly as a canonical
name, `_search` returns the associated value immediately with the matched
flag set and ratio `1`, and `__getitem__` returns that value, regardless of
the cutoff. -/
theorem c3_exact_key_returns_value (d : FuzzyDict) (k : PyKey)
    (h : dictContains d.entries k = true) :
    pySearch d k false = (true, some k, dictGetitem d.entries k, 1) ∧
      pyGetitem d k = GetResult.ok (dictGetitem d.entries k) := by
  constructor
  · simp [pySearch, h]
  · simp [pyGetitem, pySearch, h]

/-- Witness for C3 at the catalog `{"Mumbai": "101"}` and key `"Mumbai"`. -/
theorem c3_exact_key_returns_value_witness :
    pyGetitem ⟨[(PyKey.str "Mumbai", "101")], mkRat 6 10⟩ (PyKey.str "Mumbai") =
      GetResult.ok (dictGetitem [(PyKey.str "Mumbai", "101")]
        (PyKey.str "Mumbai")) :=
  (c3_exact_key_returns_value ⟨[(PyKey.str "Mumbai", "101")], mkRat 6 10⟩
    (PyKey.str "Mumbai") (by decide)).2

/-- C1: for every container whose catalog keys are all strings and every
string key that is not an exact canonical name, `__getitem__` is exactly the
best-tracking scan described by the specification: fold over all entries
keeping the strictly-better `(ratio, key, value)` triple (so ties keep the
first entry in iteration order), then return the best value when the best
ratio reaches the cutoff, and fail otherwise. -/
theorem c1_get_tracks_best_with_strict_gt (d : FuzzyDict) (ls : String)
    (hstr : ∀ kv ∈ d.entries, kv.1.isStr = true)
    (hne : dictContains d.entries (PyKey.str ls) = false) :
    pyGetitem d (PyKey.str ls) =
      if (specBest ls d.entries).1 ≥ d.cutoff then
        GetResult.ok (specBest ls d.entries).2.2
      else
        GetResult.keyError (PyKey.str ls) (specBest ls d.entries).2.1
          (specBest ls d.entries).1 := by
  have hb := searchLoop_false_eq_specBest d.cutoff ls d.entries
  by_cases hm : d.cutoff ≤ (specBest ls d.entries).1
  · simp [pyGetitem, pySearch, hne, hb, hm]
  · simp [pyGetitem, pySearch, hne, hb, hm]

/-- Witness for C1 at the specification's catalog with key `"Bangalore"`. -/
theorem c1_get_tracks_best_with_strict_gt_witness :
    pyGetitem ⟨cat3, mkRat 6 10⟩ (PyKey.str "Bangalore") =
      if (specBest "Bangalore" cat3).1 ≥ ((mkRat 6 10 : ℚ)) then
        GetResult.ok (specBest "Bangalore" cat3).2.2
      else
        GetResult.keyError (PyKey.str "Bangalore")
          (specBest "Bangalore" cat3).2.1 (specBest "Bangalore" cat3).1 :=
  c1_get_tracks_best_with_strict_gt ⟨cat3, mkRat 6 10⟩ "Bangalore" (by decide)
    (by decide)

/-- C2: `__contains__` returns true when the key is an exact entry or some
entry's string key has similarity ratio at least the cutoff; and the scan it
runs short-circuits: the short-circuiting loop computes the same result as
the plain scan run on the prefix of the entries ending at the first
candidate whose ratio reaches the cutoff. -/
theorem c2_contains_sufficient_and_short_circuits (d : FuzzyDict)
    (ls : String) :
    ((dictContains d.entries (PyKey.str ls) = true ∨
        ∃ kv ∈ d.entries, ∃ ks, kv.1 = PyKey.str ks ∧
          d.cutoff ≤ ratioQ ls ks) →
      pyContains d (PyKey.str ls) = true) ∧
    (∀ init, searchLoop d.cutoff (PyKey.str ls) true d.entries init =
      searchLoop d.cutoff (PyKey.str ls) false
        (stopScan d.cutoff ls d.entries) init) := by
  constructor
  · intro h
    rcases h with hex | hsuf
    · simp [pyContains, pySearch, hex]
    · by_cases hex : dictContains d.entries (PyKey.str ls) = true
      · simp [pyContains, pySearch, hex]
      · have hex' : dictContains d.entries (PyKey.str ls) = false := by
          cases hdc : dictContains d.entries (PyKey.str ls)
          · rfl
          · exact absurd hdc hex
        have hge := searchLoop_stop_reaches d.cutoff ls d.entries
          (0, none, none) hsuf
        simp [pyContains, pySearch, hex', hge]
  · intro init
    exact searchLoop_stop_eq_stopScan d.cutoff ls d.entries init

/-- Witness for C2: `contains("Delih")` on the specification's catalog. -/
theorem c2_contains_sufficient_and_short_circuits_witness :
    pyContains ⟨cat3, mkRat 6 10⟩ (PyKey.str "Delih") = true :=
  (c2_contains_sufficient_and_short_circuits ⟨cat3, mkRat 6 10⟩ "Delih").1
    (Or.inr ⟨(PyKey.str "Delhi", "102"), by decide, "Delhi", rfl, by decide⟩)

/-- C4: `__getitem__` on an exact key never fails; on a non-exact string
key, it fails precisely when the best ratio of the scan is below the cutoff,
and the raised `KeyError` carries the attempted key, the nearest candidate
key found, and the best ratio achieved. -/
theorem c4_keyerror_carries_diagnostics (d : FuzzyDict) (ls : String) :
    (dictContains d.entries (PyKey.str ls) = true →
      pyGetitem d (PyKey.str ls) =
        GetResult.ok (dictGetitem d.entries (PyKey.str ls))) ∧
    (dictContains d.entries (PyKey.str ls) = false →
      ((specBest ls d.entries).1 < d.cutoff ↔
        pyGetitem d (PyKey.str ls) =
          GetResult.keyError (PyKey.str ls) (specBest ls d.entries).2.1
            (specBest ls d.entries).1)) := by
  constructor
  · intro h
    simp [pyGetitem, pySearch, h]
  · intro hne
    have hb := searchLoop_false_eq_specBest d.cutoff ls d.entries
    constructor
    · intro hlt
      simp [pyGetitem, pySearch, hne, hb, not_le.mpr hlt]
    · intro heq
      by_contra hge
      have hge' : d.cutoff ≤ (specBest ls d.entries).1 := not_lt.mp hge
      have hok : pyGetitem d (PyKey.str ls) =
          GetResult.ok (specBest ls d.entries).2.2 := by
        simp [pyGetitem, pySearch, hne, hb, hge']
      rw [hok] at heq
      exact GetResult.noConfusion heq

/-- Witness for C4: `get("Bangalore")` on the specification's catalog fails
carrying the closest key and its ratio. -/
theorem c4_keyerror_carries_diagnostics_witness :
    pyGetitem ⟨cat3, mkRat 6 10⟩ (PyKey.str "Bangalore") =
      GetResult.keyError (PyKey.str "Bangalore")
        (specBest "Bangalore" cat3).2.1 (specBest "Bangalore" cat3).1 :=
  ((c4_keyerror_carries_diagnostics ⟨cat3, mkRat 6 10⟩ "Bangalore").2
    (by decide)).mp (by decide)

/-- C5 counterexample: on the empty catalog with cutoff `0`, no entry is an
exact match and no entry reaches the cutoff (there are no entries at all),
yet `contains` returns true, because the initial best ratio `0` already
satisfies `best_ratio >= cutoff`. -/
theorem c5_contains_counterexample :
    pyContains ⟨[], 0⟩ (PyKey.str "Xyz") = true := by decide

/-- C5 (amended): `__contains__` is a total boolean function (it never
raises in the embedding), and for every container with a positive cutoff it
returns false whenever the key is not an exact entry and every comparable
entry's ratio is below the cutoff. -/
theorem c5_contains_false_when_no_match (d : FuzzyDict) (item : PyKey)
    (hpos : 0 < d.cutoff)
    (hne : dictContains d.entries item = false)
    (hr : ∀ ls ks v, item = PyKey.str ls → (PyKey.str ks, v) ∈ d.entries →
      ratioQ ls ks < d.cutoff) :
    pyContains d item = false := by
  have hlt := searchLoop_fst_lt d.cutoff item true d.entries
    (0, none, none) hpos hr
  simp [pyContains, pySearch, hne, not_le.mpr hlt]

/-- Witness for C5: `contains("Xyz")` on the catalog `{"Mumbai": "101"}`. -/
theorem c5_contains_false_when_no_match_witness :
    pyContains ⟨[(PyKey.str "Mumbai", "101")], mkRat 6 10⟩ (PyKey.str "Xyz") =
      false :=
  c5_contains_false_when_no_match ⟨[(PyKey.str "Mumbai", "101")], mkRat 6 10⟩
    (PyKey.str "Xyz") (by norm_num) (by decide)
    (by
      intro ls ks v hls hm
      injection hls with h
      subst h
      have h2 : (PyKey.str ks, v) = (PyKey.str "Mumbai", "101") := by
        simpa using hm
      injection h2 with h2a h2b
      injection h2a with h2c
      subst h2c
      decide)

/-- C6: a container built by the constructor with a cutoff in `[0, 1]` has
its cutoff in `[0, 1]` (the docstring presupposes this of the argument), and
the default cutoff `.6` lies in `[0, 1]`; the embedding has no mutating
operation, so the invariant persists for the container's lifetime. -/
theorem c6_cutoff_invariant (items : List (PyKey × String)) (c : ℚ)
    (h0 : 0 ≤ c) (h1 : c ≤ 1) :
    (0 ≤ (FuzzyDict.init items c).cutoff ∧
      (FuzzyDict.init items c).cutoff ≤ 1) ∧
    ((FuzzyDict.initDefault items).cutoff = defaultCutoff ∧
      0 ≤ (FuzzyDict.initDefault items).cutoff ∧
      (FuzzyDict.initDefault items).cutoff ≤ 1) := by
  refine ⟨⟨h0, h1⟩, rfl, ?_, ?_⟩
  · norm_num [FuzzyDict.initDefault, defaultCutoff]
  · norm_num [FuzzyDict.initDefault, defaultCutoff]

/-- Witness for C6 at cutoff `1/2` and the empty catalog. -/
theorem c6_cutoff_invariant_witness :
    (0 ≤ (FuzzyDict.init [] (mkRat 1 2)).cutoff ∧
      (FuzzyDict.init [] (mkRat 1 2)).cutoff ≤ 1) ∧
    ((FuzzyDict.initDefault []).cutoff = defaultCutoff ∧
      0 ≤ (FuzzyDict.initDefault []).cutoff ∧
      (FuzzyDict.initDefault []).cutoff ≤ 1) :=
  c6_cutoff_invariant [] (mkRat 1 2) (by norm_num) (by norm_num)

/-- C7: for a fixed catalog and key, the outcome of `__getitem__` is
monotone in the cutoff: a lookup that succeeds at cutoff `c` succeeds with
the same result at every cutoff `c' ≤ c`. -/
theorem c7_get_monotone_in_cutoff (entries : List (PyKey × String))
    (c c' : ℚ) (k : PyKey) (v : Option String) (hle : c' ≤ c)
    (hok : pyGetitem ⟨entries, c⟩ k = GetResult.ok v) :
    pyGetitem ⟨entries, c'⟩ k = GetResult.ok v := by
  by_cases hex : dictContains entries k = true
  · have h1 : pyGetitem ⟨entries, c⟩ k =
        GetResult.ok (dictGetitem entries k) := by
      simp [pyGetitem, pySearch, hex]
    have h2 : pyGetitem ⟨entries, c'⟩ k =
        GetResult.ok (dictGetitem entries k) := by
      simp [pyGetitem, pySearch, hex]
    rw [h1] at hok
    rw [h2, hok]
  · have hex' : dictContains entries k = false := by
      cases hdc : dictContains entries k
      · rfl
      · exact absurd hdc hex
    have hirr := searchLoop_cutoff_irrel c c' k entries (0, none, none)
    by_cases hge : c ≤ (searchLoop c k false entries (0, none, none)).1
    · have hge' : c' ≤ (searchLoop c' k false entries (0, none, none)).1 := by
        rw [← hirr]
        exact le_trans hle hge
      have h1 : pyGetitem ⟨entries, c⟩ k =
          GetResult.ok (searchLoop c k false entries (0, none, none)).2.2 := by
        simp [pyGetitem, pySearch, hex', hge]
      have h2 : pyGetitem ⟨entries, c'⟩ k =
          GetResult.ok
            (searchLoop c' k false entries (0, none, none)).2.2 := by
        simp [pyGetitem, pySearch, hex', hge']
      rw [h1] at hok
      rw [h2, ← hirr]
      exact hok
    · have h1 : pyGetitem ⟨entries, c⟩ k =
          GetResult.keyError k
            (searchLoop c k false entries (0, none, none)).2.1
            (searchLoop c k false entries (0, none, none)).1 := by
        simp [pyGetitem, pySearch, hex', hge]
      rw [h1] at hok
      exact absurd hok (by simp)

/-- Witness for C7: `get("Mumbaii")` succeeds at cutoff `6/10`, hence also
at cutoff `1/2`. -/
theorem c7_get_monotone_in_cutoff_witness :
    pyGetitem ⟨[(PyKey.str "Mumbai", "101")], mkRat 1 2⟩
      (PyKey.str "Mumbaii") = GetResult.ok (some "101") :=
  c7_get_monotone_in_cutoff [(PyKey.str "Mumbai", "101")] (mkRat 6 10) (mkRat 1 2)
    (PyKey.str "Mumbaii") (some "101") (by norm_num) (by decide)

/-- C9: non-string canonical keys are silently skipped: on a string lookup
key, `__getitem__` and `__contains__` compute exactly what they compute on
the catalog restricted to its string keys (so they never fail because of an
incomparable key, and such a key is never the fuzzy match). -/
theorem c9_nonstring_keys_skipped (entries : List (PyKey × String)) (c : ℚ)
    (ls : String) :
    pyGetitem ⟨entries, c⟩ (PyKey.str ls) =
      pyGetitem ⟨entries.filter (fun kv => kv.1.isStr), c⟩ (PyKey.str ls) ∧
    pyContains ⟨entries, c⟩ (PyKey.str ls) =
      pyContains ⟨entries.filter (fun kv => kv.1.isStr), c⟩
        (PyKey.str ls) := by
  constructor
  · simp only [pyGetitem, pySearch, dictContains_filter_str,
      dictGetitem_filter_str, searchLoop_filter_str]
  · simp only [pyContains, pySearch, dictContains_filter_str,
      dictGetitem_filter_str, searchLoop_filter_str]

/-- C10: with a non-positive cutoff, every lookup of a key with no exact
entry is reported as matched (the initial best ratio `0` already reaches the
cutoff): `contains` returns true and `get` succeeds; in particular on the
empty catalog `contains` is true for every key and `get` returns the absent
value. -/
theorem c10_nonpositive_cutoff_always_matches (d : FuzzyDict) (k : PyKey)
    (hc : d.cutoff ≤ 0) :
    (dictContains d.entries k = false →
      pyContains d k = true ∧ ∃ v, pyGetitem d k = GetResult.ok v) ∧
    (d.entries = [] →
      pyContains d k = true ∧ pyGetitem d k = GetResult.ok none) := by
  have hmain : dictContains d.entries k = false →
      pyContains d k = true ∧ ∃ v, pyGetitem d k = GetResult.ok v := by
    intro hne
    have h1 : d.cutoff ≤ (searchLoop d.cutoff k true d.entries
        (0, none, none)).1 :=
      le_trans hc (searchLoop_fst_ge _ _ _ _ _)
    have h2 : d.cutoff ≤ (searchLoop d.cutoff k false d.entries
        (0, none, none)).1 :=
      le_trans hc (searchLoop_fst_ge _ _ _ _ _)
    constructor
    · simp [pyContains, pySearch, hne, h1]
    · refine ⟨(searchLoop d.cutoff k false d.entries (0, none, none)).2.2, ?_⟩
      simp [pyGetitem, pySearch, hne, h2]
  constructor
  · exact hmain
  · intro hnil
    have hne : dictContains d.entries k = false := by
      rw [hnil]
      rfl
    have hloop : searchLoop d.cutoff k false d.entries (0, none, none) =
        (0, none, none) := by
      rw [hnil]
      rfl
    have hloop' : searchLoop d.cutoff k true d.entries (0, none, none) =
        (0, none, none) := by
      rw [hnil]
      rfl
    constructor
    · simp [pyContains, pySearch, hne, hloop', hc]
    · simp [pyGetitem, pySearch, hne, hloop, hc]

/-- Witness for C10 on the empty catalog with cutoff `0`. -/
theorem c10_nonpositive_cutoff_always_matches_witness :
    pyContains ⟨[], 0⟩ (PyKey.str "Delhi") = true ∧
      pyGetitem ⟨[], 0⟩ (PyKey.str "Delhi") = GetResult.ok none :=
  (c10_nonpositive_cutoff_always_matches ⟨[], 0⟩ (PyKey.str "Delhi")
    (le_refl 0)).2 rfl

theorem runLen_le_left (x y : List Char) : runLen x y ≤ x.length := by
  induction x generalizing y with
  | nil => cases y <;> simp [runLen]
  | cons a as ih =>
    cases y with
    | nil => simp [runLen]
    | cons b bs =>
      by_cases h : a = b
      · simpa [runLen, h] using Nat.succ_le_succ (ih bs)
      · simp [runLen, h]

theorem runLen_le_right (x y : List Char) : runLen x y ≤ y.length := by
  induction x generalizing y with
  | nil => cases y <;> simp [runLen]
  | cons a as ih =>
    cases y with
    | nil => simp [runLen]
    | cons b bs =>
      by_cases h : a = b
      · simpa [runLen, h] using Nat.succ_le_succ (ih bs)
      · simp [runLen, h]

theorem runLen_take_eq (x y : List Char) :
    x.take (runLen x y) = y.take (runLen x y) := by
  induction x generalizing y with
  | nil => cases y <;> simp [runLen]
  | cons a as ih =>
    cases y with
    | nil => simp [runLen]
    | cons b bs =>
      by_cases h : a = b
      · simp [runLen, h, ih bs]
      · simp [runLen, h]

theorem foldl_preserve {α β : Type} (P : β → Prop) (f : β → α → β)
    (hstep : ∀ b a, P b → P (f b a)) (l : List α) (init : β) (h : P init) :
    P (l.foldl f init) := by
  induction l generalizing init with
  | nil => exact h
  | cons a l ih => exact ih (f init a) (hstep init a h)

/-- Soundness of a block triple `(i, j, k)`: either it is the empty block,
or it denotes an actual matching run of length exactly `k` inside bounds. -/
def goodBlock (a b : List Char) (t : Nat × Nat × Nat) : Prop :=
  t.2.2 = 0 ∨ (t.1 + t.2.2 ≤ a.length ∧ t.2.1 + t.2.2 ≤ b.length ∧
    runLen (a.drop t.1) (b.drop t.2.1) = t.2.2)

theorem blockStep_good (a b : List Char) (best : Nat × Nat × Nat)
    (p : Nat × Nat) (h : goodBlock a b best) :
    goodBlock a b (blockStep a b best p) := by
  unfold blockStep
  split
  · rename_i hgt
    right
    refine ⟨?_, ?_, rfl⟩
    · show p.1 + runLen (a.drop p.1) (b.drop p.2) ≤ a.length
      have h1 := runLen_le_left (a.drop p.1) (b.drop p.2)
      rw [List.length_drop] at h1
      omega
    · show p.2 + runLen (a.drop p.1) (b.drop p.2) ≤ b.length
      have h2 := runLen_le_right (a.drop p.1) (b.drop p.2)
      rw [List.length_drop] at h2
      omega
  · exact h

theorem bestBlock_good (a b : List Char) : goodBlock a b (bestBlock a b) :=
  foldl_preserve (goodBlock a b) (blockStep a b) (blockStep_good a b)
    (idxPairs a.length b.length) (0, 0, 0) (Or.inl rfl)

theorem mTotal_le_left (fuel : Nat) : ∀ (a b : List Char),
    mTotal fuel a b ≤ a.length := by
  induction fuel with
  | zero =>
    intro a b
    simp [mTotal]
  | succ n ih =>
    intro a b
    rcases bestBlock_good a b with h0 | ⟨h1, h2, h3⟩
    · simp [mTotal, h0]
    · simp only [mTotal]
      split
      · omega
      · have hl := ih (a.take (bestBlock a b).1) (b.take (bestBlock a b).2.1)
        have hr := ih (a.drop ((bestBlock a b).1 + (bestBlock a b).2.2))
          (b.drop ((bestBlock a b).2.1 + (bestBlock a b).2.2))
        rw [List.length_take] at hl
        rw [List.length_drop] at hr
        omega

theorem mTotal_le_right (fuel : Nat) : ∀ (a b : List Char),
    mTotal fuel a b ≤ b.length := by
  induction fuel with
  | zero =>
    intro a b
    simp [mTotal]
  | succ n ih =>
    intro a b
    rcases bestBlock_good a b with h0 | ⟨h1, h2, h3⟩
    · simp [mTotal, h0]
    · simp only [mTotal]
      split
      · omega
      · have hl := ih (a.take (bestBlock a b).1) (b.take (bestBlock a b).2.1)
        have hr := ih (a.drop ((bestBlock a b).1 + (bestBlock a b).2.2))
          (b.drop ((bestBlock a b).2.1 + (bestBlock a b).2.2))
        rw [List.length_take] at hl
        rw [List.length_drop] at hr
        omega

theorem mTotal_eq_full (fuel : Nat) : ∀ (a b : List Char),
    a.length ≤ fuel → mTotal fuel a b = a.length →
    mTotal fuel a b = b.length → a = b := by
  induction fuel with
  | zero =>
    intro a b hf ha hb
    simp only [mTotal] at ha hb
    rw [List.length_eq_zero.mp ha.symm, List.length_eq_zero.mp hb.symm]
  | succ n ih =>
    intro a b hf ha hb
    by_cases hk : (bestBlock a b).2.2 = 0
    · simp only [mTotal, if_pos hk] at ha hb
      rw [List.length_eq_zero.mp ha.symm, List.length_eq_zero.mp hb.symm]
    · rcases bestBlock_good a b with h0 | ⟨h1, h2, h3⟩
      · exact absurd h0 hk
      simp only [mTotal, if_neg hk] at ha hb
      have hl1 := mTotal_le_left n (a.take (bestBlock a b).1)
        (b.take (bestBlock a b).2.1)
      have hl2 := mTotal_le_right n (a.take (bestBlock a b).1)
        (b.take (bestBlock a b).2.1)
      have hr1 := mTotal_le_left n
        (a.drop ((bestBlock a b).1 + (bestBlock a b).2.2))
        (b.drop ((bestBlock a b).2.1 + (bestBlock a b).2.2))
      have hr2 := mTotal_le_right n
        (a.drop ((bestBlock a b).1 + (bestBlock a b).2.2))
        (b.drop ((bestBlock a b).2.1 + (bestBlock a b).2.2))
      rw [List.length_take] at hl1 hl2
      rw [List.length_drop] at hr1 hr2
      have hL : a.take (bestBlock a b).1 = b.take (bestBlock a b).2.1 := by
        apply ih
        · rw [List.length_take]
          omega
        · rw [List.length_take]
          omega
        · rw [List.length_take]
          omega
      have hR : a.drop ((bestBlock a b).1 + (bestBlock a b).2.2) =
          b.drop ((bestBlock a b).2.1 + (bestBlock a b).2.2) := by
        apply ih
        · rw [List.length_drop]
          omega
        · rw [List.length_drop]
          omega
        · rw [List.length_drop]
          omega
      have hM : (a.drop (bestBlock a b).1).take (bestBlock a b).2.2 =
          (b.drop (bestBlock a b).2.1).take (bestBlock a b).2.2 := by
        rw [← h3]
        exact runLen_take_eq _ _
      have hda : (a.drop (bestBlock a b).1).drop (bestBlock a b).2.2 =
          a.drop ((bestBlock a b).1 + (bestBlock a b).2.2) :=
        List.drop_drop (bestBlock a b).2.2 (bestBlock a b).1 a
      have hdb : (b.drop (bestBlock a b).2.1).drop (bestBlock a b).2.2 =
          b.drop ((bestBlock a b).2.1 + (bestBlock a b).2.2) :=
        List.drop_drop (bestBlock a b).2.2 (bestBlock a b).2.1 b
      have hfa : a = a.take (bestBlock a b).1 ++
          ((a.drop (bestBlock a b).1).take (bestBlock a b).2.2 ++
            a.drop ((bestBlock a b).1 + (bestBlock a b).2.2)) := by
        rw [← hda, List.take_append_drop, List.take_append_drop]
      rw [hfa, hL, hM, hR, ← hdb, List.take_append_drop,
        List.take_append_drop]

theorem two_mul_matchTotal_lt (a b : String) (h : a ≠ b) :
    2 * matchTotal a b < a.data.length + b.data.length := by
  by_contra hge
  push_neg at hge
  have h1 := mTotal_le_left a.data.length a.data b.data
  have h2 := mTotal_le_right a.data.length a.data b.data
  unfold matchTotal at hge
  have hMa : mTotal a.data.length a.data b.data = a.data.length := by omega
  have hMb : mTotal a.data.length a.data b.data = b.data.length := by omega
  exact h (String.ext
    (mTotal_eq_full a.data.length a.data b.data (le_refl _) hMa hMb))

/-- Two distinct strings have similarity ratio strictly below `1`. -/
theorem ratioQ_lt_one (a b : String) (h : a ≠ b) : ratioQ a b < 1 := by
  unfold ratioQ
  split
  · rename_i h0
    exact absurd
      (String.ext (by
        rw [List.length_eq_zero.mp (by omega : a.data.length = 0),
          List.length_eq_zero.mp (by omega : b.data.length = 0)]))
      h
  · rename_i h0
    have hlt := two_mul_matchTotal_lt a b h
    rw [Rat.mkRat_eq_div]
    rw [div_lt_one (by exact_mod_cast Nat.pos_of_ne_zero h0)]
    exact_mod_cast hlt

/-- C8: with cutoff `1`, only exact matches succeed: `__getitem__` returns a
value only when the key is literally a canonical name (the similarity ratio
of two distinct strings is strictly below `1`); in particular, on the
specification's catalog, which contains `"Mumbai"` but not `"Mumbay"`,
`get("Mumbay")` fails carrying the closest key `"Mumbai"` and its ratio
`5/6`. -/
theorem c8_cutoff_one_only_exact :
    (∀ (entries : List (PyKey × String)) (k : PyKey) (v : Option String),
      pyGetitem ⟨entries, 1⟩ k = GetResult.ok v →
        dictContains entries k = true) ∧
    pyGetitem ⟨cat3, 1⟩ (PyKey.str "Mumbay") =
      GetResult.keyError (PyKey.str "Mumbay") (some (PyKey.str "Mumbai"))
        (mkRat 10 12) := by
  constructor
  · intro entries k v hok
    by_cases hex : dictContains entries k = true
    · exact hex
    · exfalso
      have hex' : dictContains entries k = false := by
        cases hdc : dictContains entries k
        · rfl
        · exact absurd hdc hex
      have hr : ∀ ls ks v', k = PyKey.str ls →
          (PyKey.str ks, v') ∈ entries → ratioQ ls ks < 1 := by
        intro ls ks v' hlf hm
        have hne : PyKey.str ks ≠ k := by
          intro hcontra
          have hc2 : dictContains entries k = true := by
            unfold dictContains
            rw [List.any_eq_true]
            exact ⟨(PyKey.str ks, v'), hm, by simp [hcontra]⟩
          rw [hc2] at hex'
          exact Bool.noConfusion hex'
        apply ratioQ_lt_one
        intro hls
        apply hne
        rw [hlf, hls]
      have hlt := searchLoop_fst_lt 1 k false entries (0, none, none)
        (by norm_num) hr
      have hkey : pyGetitem ⟨entries, 1⟩ k =
          GetResult.keyError k
            (searchLoop 1 k false entries (0, none, none)).2.1
            (searchLoop 1 k false entries (0, none, none)).1 := by
        simp [pyGetitem, pySearch, hex', not_le.mpr hlt]
      rw [hkey] at hok
      exact GetResult.noConfusion hok
  · decide

/-- Witness for C8: a successful lookup at cutoff `1` implies exact
membership. -/
theorem c8_cutoff_one_only_exact_witness :
    dictContains [(PyKey.str "Agra", "1")] (PyKey.str "Agra") = true :=
  c8_cutoff_one_only_exact.1 [(PyKey.str "Agra", "1")] (PyKey.str "Agra")
    (some "1") (by decide)

end FuzzyLookup
